import Mathlib

/-!
Verification of the build-info text codec in `src/runtime/debug/mod.go`
(package `debug`): the data model (`BuildInfo`, `Module`), the encoder
(`BuildInfo.MarshalText`), the decoder (`BuildInfo.UnmarshalText`) and the
framing wrapper (`ReadBuildInfo`).

Byte strings are modelled as `List Char` (the format is byte-oriented; every
byte is modelled as one `Char`).  Go slices of module pointers become lists of
module values; the decoder's `last *Module` pointer (which only ever points at
`bi.Main` or at the final element of `bi.Deps`) becomes the three-valued tag
`Last`.  Errors become explicit `FormatError` values carrying the 1-based line
number and the message text, mirroring
`fmt.Errorf("could not parse Go build info: line %d: %w", lineNum, err)`.
-/

namespace Debug

/-- Byte strings of the codec, modelled as lists of characters. -/
abbrev Bytes := List Char

/-- Module represents a module (mod.go lines 38-44): path, version, checksum
and an optional replacement (`Replace *Module`, nil = `none`). -/
inductive Module : Type where
  | mk (Path Version Sum : Bytes) (Replace : Option Module)

/-- Field accessor for `Module.Path`. -/
def Module.Path : Module → Bytes
  | .mk p _ _ _ => p

/-- Field accessor for `Module.Version`. -/
def Module.Version : Module → Bytes
  | .mk _ v _ _ => v

/-- Field accessor for `Module.Sum`. -/
def Module.Sum : Module → Bytes
  | .mk _ _ s _ => s

/-- Field accessor for `Module.Replace`. -/
def Module.Replace : Module → Option Module
  | .mk _ _ _ r => r

/-- Structural boolean equality on `Module` (the nested occurrence of
`Module` under `Option` defeats `deriving DecidableEq`, so it is hand-rolled). -/
def Module.beq : Module → Module → Bool
  | .mk p v s none, .mk p2 v2 s2 none => p == p2 && v == v2 && s == s2
  | .mk p v s (some r), .mk p2 v2 s2 (some r2) => p == p2 && v == v2 && s == s2 && Module.beq r r2
  | _, _ => false

theorem Module.beq_iff : (a b : Module) → (Module.beq a b = true ↔ a = b)
  | .mk p v s none, .mk p2 v2 s2 none => by simp [Module.beq, and_assoc]
  | .mk p v s none, .mk p2 v2 s2 (some r2) => by simp [Module.beq, and_assoc]
  | .mk p v s (some r), .mk p2 v2 s2 none => by simp [Module.beq, and_assoc]
  | .mk p v s (some r), .mk p2 v2 s2 (some r2) => by
      have ih := Module.beq_iff r r2
      simp [Module.beq, ih, and_assoc]

instance : DecidableEq Module := fun a b => decidable_of_iff _ (Module.beq_iff a b)

/-- The zero value `Module{}` of Go. -/
def zeroModule : Module := Module.mk [] [] [] none

/-- BuildInfo represents the build information read from a Go binary
(mod.go lines 31-36): main package path, main module, dependency modules. -/
structure BuildInfo where
  Path : Bytes
  Main : Module
  Deps : List Module
  deriving DecidableEq

/-- The zero value `BuildInfo{}` of Go. -/
def zeroBuildInfo : BuildInfo := ⟨[], zeroModule, []⟩

/-! ## Encoder: `BuildInfo.MarshalText` (mod.go lines 46-79) -/

/-- Models the recursive local closure `formatMod` of `MarshalText`
(mod.go lines 51-70): keyword, tab, path, tab, version (an empty version is
rendered as `(devel)`); when there is no replacement a tab and the checksum
follow, otherwise a newline, the recursively formatted replacement with
keyword `=>`, and in both cases a final newline. -/
def formatMod : Bytes → Module → Bytes
  | word, .mk p v s none =>
    word ++ '\t' :: p ++ '\t' :: (if v = [] then "(devel)".data else v) ++ '\t' :: s ++ ['\n']
  | word, .mk p v _s (some r) =>
    word ++ '\t' :: p ++ '\t' :: (if v = [] then "(devel)".data else v) ++
      '\n' :: formatMod "=>".data r ++ ['\n']

/-- Models `BuildInfo.MarshalText` (mod.go lines 46-79).  The Go method
returns `([]byte, error)` with the error always nil, so only the bytes are
modelled: an optional `path` line when `bi.Path` is non-empty, the main module
(when its path is non-empty) with keyword `mod`, then every dependency with
keyword `dep`. -/
def BuildInfo.marshalText (bi : BuildInfo) : Bytes :=
  (if bi.Path = [] then [] else "path\t".data ++ bi.Path ++ ['\n']) ++
    (if bi.Main.Path = [] then [] else formatMod "mod".data bi.Main) ++
    (bi.Deps.map (formatMod "dep".data)).flatten

/-! ## Decoder: `BuildInfo.UnmarshalText` (mod.go lines 81-162) -/

/-- Decode errors, modelling the wrapped
`could not parse Go build info: line %d: %w` error of mod.go lines 84-88:
the 1-based line number and the inner message. -/
structure FormatError where
  line : Nat
  msg : String
  deriving DecidableEq

/-- Boolean prefix test on byte strings, modelling `bytes.HasPrefix`. -/
def startsWith : Bytes → Bytes → Bool
  | [], _ => true
  | _ :: _, [] => false
  | p :: ps, c :: cs => p == c && startsWith ps cs

/-- Splitting on the tab byte, modelling `bytes.Split(s, tab)`: the result
always has one more element than the number of tabs, and is `[[]]` on empty
input, exactly as in Go. -/
def splitTab : Bytes → List Bytes
  | [] => [[]]
  | c :: rest =>
    if c = '\t' then [] :: splitTab rest
    else
      match splitTab rest with
      | [] => [[c]]
      | s :: ss => (c :: s) :: ss

/-- Models the line scanning of the decode loop (mod.go lines 120-124):
`bytes.Cut(data, newline)` is applied repeatedly and the loop breaks as soon
as no newline is found, so the list of processed lines consists of the
newline-terminated lines only — a trailing unterminated fragment is dropped. -/
def toLines : Bytes → List Bytes
  | [] => []
  | c :: rest =>
    if c = '\n' then [] :: toLines rest
    else
      match toLines rest with
      | [] => []
      | l :: ls => (c :: l) :: ls

/-- Models the local closure `readModuleLine` (mod.go lines 99-112): a mod or
dep line must split into 2 or 3 columns (path, version, optional checksum);
the module is built with a nil replacement. -/
def readModuleLine : List Bytes → Except String Module
  | [p, v] => .ok (Module.mk p v [] none)
  | [p, v, s] => .ok (Module.mk p v s none)
  | elem => .error ("expected 2 or 3 columns; got " ++ toString elem.length)

/-- Models the `last *Module` pointer of the decode loop (mod.go line 115):
it is nil, or points at `bi.Main`, or points at the final element of
`bi.Deps` (the only values it ever takes in the source). -/
inductive Last where
  | none
  | main
  | dep
  deriving DecidableEq

/-- Replacement assignment `last.Replace = &Module{...}` on a module value. -/
def Module.withReplace : Module → Module → Module
  | .mk p v s _, r => .mk p v s (some r)

/-- Replacement assignment through a `last` pointer aimed at the final
element of the dependency list. -/
def attachToLastDep (r : Module) : List Module → List Module
  | [] => []
  | [m] => [m.withReplace r]
  | m :: ms => m :: attachToLastDep r ms

/-- Models one iteration of the decode loop's `switch` (mod.go lines
125-158) on an already-extracted line: `inl` is the continue case carrying
the updated build info and `last` tag, `inr` is the early-return case
carrying the (partially mutated) build info and the error message.  The
cases mirror the source: a `path\t` line stores the remainder verbatim; a
`mod\t` line parses columns into `bi.Main` and aims `last` at it (on error
the multi-assignment `*last, err = readModuleLine(elem)` still writes the
zero module); a `dep\t` line appends a fresh module and aims `last` at it;
a `=>\t` line requires exactly 3 columns (checked first), then a non-nil
`last`, attaches the replacement and clears `last`; any other line is
ignored. -/
def stepLine (line : Bytes) (bi : BuildInfo) (last : Last) :
    (BuildInfo × Last) ⊕ (BuildInfo × String) :=
  if startsWith "path\t".data line then
    .inl ({ bi with Path := line.drop 5 }, last)
  else if startsWith "mod\t".data line then
    match readModuleLine (splitTab (line.drop 4)) with
    | .ok m => .inl ({ bi with Main := m }, Last.main)
    | .error e => .inr ({ bi with Main := zeroModule }, e)
  else if startsWith "dep\t".data line then
    match readModuleLine (splitTab (line.drop 4)) with
    | .ok m => .inl ({ bi with Deps := bi.Deps ++ [m] }, Last.dep)
    | .error e => .inr ({ bi with Deps := bi.Deps ++ [zeroModule] }, e)
  else if startsWith "=>\t".data line then
    match splitTab (line.drop 3) with
    | [p, v, s] =>
      match last with
      | Last.none => .inr (bi, "replacement with no module on previous line")
      | Last.main => .inl ({ bi with Main := bi.Main.withReplace (Module.mk p v s none) }, Last.none)
      | Last.dep => .inl ({ bi with Deps := attachToLastDep (Module.mk p v s none) bi.Deps }, Last.none)
    | elem => .inr (bi, "expected 3 columns for replacement; got " ++ toString elem.length)
  else
    .inl (bi, last)

/-- Models the decode loop (mod.go lines 120-160) over the extracted lines:
`lineNum` starts at 1 and is incremented once per consumed line; on an error
the loop returns immediately with the current line number. -/
def decodeLines : List Bytes → Nat → BuildInfo → Last → BuildInfo × Option FormatError
  | [], _, bi, _ => (bi, none)
  | line :: rest, lineNum, bi, last =>
    match stepLine line bi last with
    | .inl (bi2, last2) => decodeLines rest (lineNum + 1) bi2 last2
    | .inr (bi2, msg) => (bi2, some ⟨lineNum, msg⟩)

/-- Models `BuildInfo.UnmarshalText` (mod.go lines 81-162).  The receiver is
reset first (`*bi = BuildInfo{}`, line 82), so the prior receiver contents
never influence the run; the pair returned is the final receiver state
together with the (wrapped) error. -/
def BuildInfo.unmarshalText (_bi : BuildInfo) (data : Bytes) :
    BuildInfo × Option FormatError :=
  decodeLines (toLines data) 1 zeroBuildInfo Last.none

/-- Models `ReadBuildInfo` (mod.go lines 18-29) as a function of the string
returned by the runtime's `modinfo()` accessor (which is external to this
file's source): inputs shorter than 32 bytes report absence; otherwise the
first 16 and last 16 bytes are stripped and the remainder decoded, a decode
error again reporting absence.  `(nil, false)` is modelled as `none` and
`(bi, true)` as `some bi`. -/
def ReadBuildInfo (data : Bytes) : Option BuildInfo :=
  if data.length < 32 then none
  else
    match BuildInfo.unmarshalText zeroBuildInfo ((data.drop 16).take (data.length - 32)) with
    | (_, some _) => none
    | (bi, none) => some bi

/-! ## Format well-formedness and normalization (spec-side notions used to
state the round-trip properties; everything below is defined over the
embedded code above, not taken from the source) -/

/-- A field is clean when it contains neither a tab nor a newline byte: the
wire format separates columns by tabs and lines by newlines, so dirty fields
cannot survive a round trip. -/
def cleanB (s : Bytes) : Bool := decide ('\t' ∉ s) && decide ('\n' ∉ s)

/-- A module is encodable when all its fields are clean, a module carrying a
replacement has an empty checksum (the encoder drops the checksum column in
that case) and the replacement, if any, is itself clean with no further
replacement (the format cannot express depth 2). -/
def wfModB : Module → Bool
  | .mk p v s none => cleanB p && cleanB v && cleanB s
  | .mk p v s (some (.mk rp rv rs none)) =>
      cleanB p && cleanB v && decide (s = []) && cleanB rp && cleanB rv && cleanB rs
  | .mk _ _ _ (some (.mk _ _ _ (some _))) => false

/-- A build info is encodable when the main path has no newline, the main
module is either the zero module (and is then skipped by the encoder) or has
a non-empty path and is encodable, and every dependency is encodable. -/
def wfBI (bi : BuildInfo) : Bool :=
  decide ('\n' ∉ bi.Path) &&
    (if bi.Main.Path = [] then decide (bi.Main = zeroModule) else wfModB bi.Main) &&
    bi.Deps.all wfModB

/-- Every version field of the module (and of its replacement chain) is
non-empty. -/
def versionsOk : Module → Bool
  | .mk _ v _ none => decide (v ≠ [])
  | .mk _ v _ (some r) => decide (v ≠ []) && versionsOk r

/-- Every version field of the build info is non-empty. -/
def biVersionsOk (bi : BuildInfo) : Bool :=
  versionsOk bi.Main && bi.Deps.all versionsOk

/-- The devel normalization performed by one encode/decode cycle: every
empty version field becomes the literal `(devel)`. -/
def normMod : Module → Module
  | .mk p v s none => .mk p (if v = [] then "(devel)".data else v) s none
  | .mk p v s (some r) => .mk p (if v = [] then "(devel)".data else v) s (some (normMod r))

/-- The build info produced by decoding the encoding of `bi` (when `bi` is
encodable): the main module disappears when its path is empty, and every
module is devel-normalized. -/
def rtBI (bi : BuildInfo) : BuildInfo :=
  ⟨bi.Path, if bi.Main.Path = [] then zeroModule else normMod bi.Main, bi.Deps.map normMod⟩

/-- The replacement of the module, when present, has no replacement of its
own (replacement depth at most 1). -/
def modOneLevel : Module → Bool
  | .mk _ _ _ none => true
  | .mk _ _ _ (some (.mk _ _ _ rr)) => rr.isNone

/-- No replacement module anywhere in the build info carries a further
replacement. -/
def repDepthOk (bi : BuildInfo) : Bool :=
  modOneLevel bi.Main && bi.Deps.all modOneLevel

/-- Newline-terminates and concatenates a list of lines. -/
def joinLines (ls : List Bytes) : Bytes :=
  (ls.map (fun l => l ++ ['\n'])).flatten

/-- The effect on the build info of a run of lines that are each either a
`path` line (which overwrites the main path) or unrecognized (ignored). -/
def applyMids : BuildInfo → List Bytes → BuildInfo
  | bi, [] => bi
  | bi, l :: ls =>
      applyMids (if startsWith "path\t".data l then { bi with Path := l.drop 5 } else bi) ls

/-! ## Byte-level lemmas about line extraction and column splitting -/

theorem toLines_line (l r : Bytes) (h : '\n' ∉ l) : toLines (l ++ '\n' :: r) = l :: toLines r := by
  induction l with
  | nil => simp [toLines]
  | cons c cs ih =>
      have hc : c ≠ '\n' := fun e => h (e ▸ List.mem_cons_self c cs)
      have hcs : '\n' ∉ cs := fun e => h (List.mem_cons_of_mem c e)
      simp [toLines, hc, ih hcs]

theorem toLines_eq_nil (s : Bytes) (h : '\n' ∉ s) : toLines s = [] := by
  induction s with
  | nil => rfl
  | cons c cs ih =>
      have hc : c ≠ '\n' := fun e => h (e ▸ List.mem_cons_self c cs)
      have hcs : '\n' ∉ cs := fun e => h (List.mem_cons_of_mem c e)
      simp [toLines, hc, ih hcs]

theorem toLines_append_frag (d f : Bytes) (h : '\n' ∉ f) : toLines (d ++ f) = toLines d := by
  induction d with
  | nil => simpa using toLines_eq_nil f h
  | cons c cs ih =>
      by_cases hc : c = '\n'
      · subst hc; simp [toLines, ih]
      · simp [toLines, hc, ih]

theorem splitTab_single (s : Bytes) (h : '\t' ∉ s) : splitTab s = [s] := by
  induction s with
  | nil => rfl
  | cons c cs ih =>
      have hc : c ≠ '\t' := fun e => h (e ▸ List.mem_cons_self c cs)
      have hcs : '\t' ∉ cs := fun e => h (List.mem_cons_of_mem c e)
      simp [splitTab, hc, ih hcs]

theorem splitTab_cons (a b : Bytes) (h : '\t' ∉ a) : splitTab (a ++ '\t' :: b) = a :: splitTab b := by
  induction a with
  | nil => simp [splitTab]
  | cons c cs ih =>
      have hc : c ≠ '\t' := fun e => h (e ▸ List.mem_cons_self c cs)
      have hcs : '\t' ∉ cs := fun e => h (List.mem_cons_of_mem c e)
      have hne : splitTab (cs ++ '\t' :: b) ≠ [] := by
        rw [ih hcs]; exact List.cons_ne_nil _ _
      simp [splitTab, hc, ih hcs]

/-! ## Single-line decoding lemmas -/

theorem stepLine_path (rest : Bytes) (bi : BuildInfo) (last : Last) :
    stepLine ("path\t".data ++ rest) bi last = .inl ({ bi with Path := rest }, last) := rfl

theorem stepLine_mod (rest : Bytes) (bi : BuildInfo) (last : Last) :
    stepLine ("mod\t".data ++ rest) bi last =
      match readModuleLine (splitTab rest) with
      | .ok m => .inl ({ bi with Main := m }, Last.main)
      | .error e => .inr ({ bi with Main := zeroModule }, e) := rfl

theorem stepLine_dep (rest : Bytes) (bi : BuildInfo) (last : Last) :
    stepLine ("dep\t".data ++ rest) bi last =
      match readModuleLine (splitTab rest) with
      | .ok m => .inl ({ bi with Deps := bi.Deps ++ [m] }, Last.dep)
      | .error e => .inr ({ bi with Deps := bi.Deps ++ [zeroModule] }, e) := rfl

theorem stepLine_rep (rest : Bytes) (bi : BuildInfo) (last : Last) :
    stepLine ("=>\t".data ++ rest) bi last =
      match splitTab rest with
      | [p, v, s] =>
        match last with
        | Last.none => .inr (bi, "replacement with no module on previous line")
        | Last.main => .inl ({ bi with Main := bi.Main.withReplace (Module.mk p v s none) }, Last.none)
        | Last.dep => .inl ({ bi with Deps := attachToLastDep (Module.mk p v s none) bi.Deps }, Last.none)
      | elem => .inr (bi, "expected 3 columns for replacement; got " ++ toString elem.length) := rfl

theorem stepLine_mod2 (p v : Bytes) (hp : '\t' ∉ p) (hv : '\t' ∉ v) (bi : BuildInfo) (last : Last) :
    stepLine ("mod\t".data ++ (p ++ '\t' :: v)) bi last =
      .inl ({ bi with Main := Module.mk p v [] none }, Last.main) := by
  rw [stepLine_mod, splitTab_cons _ _ hp, splitTab_single _ hv]; rfl

theorem stepLine_mod3 (p v s : Bytes) (hp : '\t' ∉ p) (hv : '\t' ∉ v) (hs : '\t' ∉ s)
    (bi : BuildInfo) (last : Last) :
    stepLine ("mod\t".data ++ (p ++ '\t' :: (v ++ '\t' :: s))) bi last =
      .inl ({ bi with Main := Module.mk p v s none }, Last.main) := by
  rw [stepLine_mod, splitTab_cons _ _ hp, splitTab_cons _ _ hv, splitTab_single _ hs]; rfl

theorem stepLine_dep2 (p v : Bytes) (hp : '\t' ∉ p) (hv : '\t' ∉ v) (bi : BuildInfo) (last : Last) :
    stepLine ("dep\t".data ++ (p ++ '\t' :: v)) bi last =
      .inl ({ bi with Deps := bi.Deps ++ [Module.mk p v [] none] }, Last.dep) := by
  rw [stepLine_dep, splitTab_cons _ _ hp, splitTab_single _ hv]; rfl

theorem stepLine_dep3 (p v s : Bytes) (hp : '\t' ∉ p) (hv : '\t' ∉ v) (hs : '\t' ∉ s)
    (bi : BuildInfo) (last : Last) :
    stepLine ("dep\t".data ++ (p ++ '\t' :: (v ++ '\t' :: s))) bi last =
      .inl ({ bi with Deps := bi.Deps ++ [Module.mk p v s none] }, Last.dep) := by
  rw [stepLine_dep, splitTab_cons _ _ hp, splitTab_cons _ _ hv, splitTab_single _ hs]; rfl

theorem stepLine_rep3 (p v s : Bytes) (hp : '\t' ∉ p) (hv : '\t' ∉ v) (hs : '\t' ∉ s)
    (bi : BuildInfo) (last : Last) :
    stepLine ("=>\t".data ++ (p ++ '\t' :: (v ++ '\t' :: s))) bi last =
      match last with
      | Last.none => .inr (bi, "replacement with no module on previous line")
      | Last.main => .inl ({ bi with Main := bi.Main.withReplace (Module.mk p v s none) }, Last.none)
      | Last.dep => .inl ({ bi with Deps := attachToLastDep (Module.mk p v s none) bi.Deps }, Last.none) := by
  rw [stepLine_rep, splitTab_cons _ _ hp, splitTab_cons _ _ hv, splitTab_single _ hs]

theorem stepLine_blank (bi : BuildInfo) (last : Last) :
    stepLine [] bi last = .inl (bi, last) := rfl

theorem stepLine_other (line : Bytes) (bi : BuildInfo) (last : Last)
    (h1 : startsWith "path\t".data line = false) (h2 : startsWith "mod\t".data line = false)
    (h3 : startsWith "dep\t".data line = false) (h4 : startsWith "=>\t".data line = false) :
    stepLine line bi last = .inl (bi, last) := by
  simp [stepLine, h1, h2, h3, h4]

/-! ## Composition lemmas: decoding the encoder's output -/

theorem cleanB_iff (s : Bytes) : cleanB s = true ↔ '\t' ∉ s ∧ '\n' ∉ s := by
  simp [cleanB]

theorem devel_clean : '\t' ∉ "(devel)".data ∧ '\n' ∉ "(devel)".data := by decide

theorem mv_clean (v : Bytes) (h : cleanB v = true) :
    '\t' ∉ (if v = [] then "(devel)".data else v) ∧ '\n' ∉ (if v = [] then "(devel)".data else v) := by
  by_cases hv : v = []
  · simp [hv]
  · simpa [hv] using (cleanB_iff v).mp h

theorem attachToLastDep_append (xs : List Module) (m r : Module) :
    attachToLastDep r (xs ++ [m]) = xs ++ [m.withReplace r] := by
  induction xs with
  | nil => rfl
  | cons x tail ih =>
      cases tail with
      | nil => rfl
      | cons y ys =>
          simp only [List.cons_append, attachToLastDep]
          exact congrArg (List.cons x) ih

theorem formatMod_none_append (w p v s rest : Bytes) :
    formatMod w (Module.mk p v s none) ++ rest
      = (w ++ '\t' :: p ++ '\t' :: (if v = [] then "(devel)".data else v) ++ '\t' :: s) ++
          '\n' :: rest := by
  show (_ ++ ['\n']) ++ rest = _
  rw [List.append_assoc, List.singleton_append]

theorem formatMod_some_append (w p v s rp rv rs rest : Bytes) :
    formatMod w (Module.mk p v s (some (Module.mk rp rv rs none))) ++ rest
      = (w ++ '\t' :: p ++ '\t' :: (if v = [] then "(devel)".data else v)) ++
          '\n' :: (("=>".data ++ '\t' :: rp ++ '\t' ::
              (if rv = [] then "(devel)".data else rv) ++ '\t' :: rs) ++
            '\n' :: ([] ++ '\n' :: rest)) := by
  show (_ ++ '\n' :: (_ ++ ['\n']) ++ ['\n']) ++ rest = _
  simp only [List.append_assoc, List.cons_append, List.singleton_append, List.nil_append]

theorem lineShape_mod (p v s : Bytes) :
    ("mod".data ++ '\t' :: p ++ '\t' :: v ++ '\t' :: s : Bytes)
      = "mod\t".data ++ (p ++ '\t' :: (v ++ '\t' :: s)) := by
  simp only [List.append_assoc, List.cons_append]
  rfl

theorem lineShape_mod2 (p v : Bytes) :
    ("mod".data ++ '\t' :: p ++ '\t' :: v : Bytes) = "mod\t".data ++ (p ++ '\t' :: v) := by
  simp only [List.append_assoc, List.cons_append]
  rfl

theorem lineShape_dep (p v s : Bytes) :
    ("dep".data ++ '\t' :: p ++ '\t' :: v ++ '\t' :: s : Bytes)
      = "dep\t".data ++ (p ++ '\t' :: (v ++ '\t' :: s)) := by
  simp only [List.append_assoc, List.cons_append]
  rfl

theorem lineShape_dep2 (p v : Bytes) :
    ("dep".data ++ '\t' :: p ++ '\t' :: v : Bytes) = "dep\t".data ++ (p ++ '\t' :: v) := by
  simp only [List.append_assoc, List.cons_append]
  rfl

theorem lineShape_rep (p v s : Bytes) :
    ("=>".data ++ '\t' :: p ++ '\t' :: v ++ '\t' :: s : Bytes)
      = "=>\t".data ++ (p ++ '\t' :: (v ++ '\t' :: s)) := by
  simp only [List.append_assoc, List.cons_append]
  rfl

theorem decode_fm_dep (m : Module) (h : wfModB m = true) (rest : Bytes) (n : Nat)
    (bi : BuildInfo) (last : Last) :
    ∃ n2 last2,
      decodeLines (toLines (formatMod "dep".data m ++ rest)) n bi last
        = decodeLines (toLines rest) n2 { bi with Deps := bi.Deps ++ [normMod m] } last2 := by
  match m with
  | .mk p v s none =>
      obtain ⟨hp, hv, hs⟩ :
          (cleanB p = true ∧ cleanB v = true ∧ cleanB s = true) := by
        simpa [wfModB, Bool.and_eq_true, and_assoc] using h
      have hpc := (cleanB_iff p).mp hp
      have hvc := mv_clean v hv
      have hsc := (cleanB_iff s).mp hs
      have hline : '\n' ∉ ("dep".data ++ '\t' :: p ++ '\t' ::
          (if v = [] then "(devel)".data else v) ++ '\t' :: s) := by
        simp [List.mem_append, hpc.2, hvc.2, hsc.2]
      refine ⟨n + 1, Last.dep, ?_⟩
      rw [formatMod_none_append, toLines_line _ _ hline]
      simp only [decodeLines]
      rw [lineShape_dep, stepLine_dep3 _ _ _ hpc.1 hvc.1 hsc.1]
      rfl
  | .mk p v s (some (.mk rp rv rs none)) =>
      obtain ⟨hp, hv, hs, hrp, hrv, hrs⟩ :
          (cleanB p = true ∧ cleanB v = true ∧ s = [] ∧
            cleanB rp = true ∧ cleanB rv = true ∧ cleanB rs = true) := by
        simpa [wfModB, Bool.and_eq_true, and_assoc] using h
      subst hs
      have hpc := (cleanB_iff p).mp hp
      have hvc := mv_clean v hv
      have hrpc := (cleanB_iff rp).mp hrp
      have hrvc := mv_clean rv hrv
      have hrsc := (cleanB_iff rs).mp hrs
      have hline1 : '\n' ∉ ("dep".data ++ '\t' :: p ++ '\t' ::
          (if v = [] then "(devel)".data else v)) := by
        simp [List.mem_append, hpc.2, hvc.2]
      have hline2 : '\n' ∉ ("=>".data ++ '\t' :: rp ++ '\t' ::
          (if rv = [] then "(devel)".data else rv) ++ '\t' :: rs) := by
        simp [List.mem_append, hrpc.2, hrvc.2, hrsc.2]
      refine ⟨n + 3, Last.none, ?_⟩
      rw [formatMod_some_append, toLines_line _ _ hline1, toLines_line _ _ hline2,
        toLines_line _ _ (by simp : '\n' ∉ ([] : Bytes))]
      simp only [decodeLines]
      rw [lineShape_dep2, stepLine_dep2 _ _ hpc.1 hvc.1]
      simp only [decodeLines]
      rw [lineShape_rep, stepLine_rep3 _ _ _ hrpc.1 hrvc.1 hrsc.1]
      simp only [decodeLines, stepLine_blank]
      rw [attachToLastDep_append]
      rfl
  | .mk p v s (some (.mk rp rv rs (some rr))) =>
      simp [wfModB] at h

theorem decode_fm_main (m : Module) (h : wfModB m = true) (rest : Bytes) (n : Nat)
    (bi : BuildInfo) (last : Last) :
    ∃ n2 last2,
      decodeLines (toLines (formatMod "mod".data m ++ rest)) n bi last
        = decodeLines (toLines rest) n2 { bi with Main := normMod m } last2 := by
  match m with
  | .mk p v s none =>
      obtain ⟨hp, hv, hs⟩ :
          (cleanB p = true ∧ cleanB v = true ∧ cleanB s = true) := by
        simpa [wfModB, Bool.and_eq_true, and_assoc] using h
      have hpc := (cleanB_iff p).mp hp
      have hvc := mv_clean v hv
      have hsc := (cleanB_iff s).mp hs
      have hline : '\n' ∉ ("mod".data ++ '\t' :: p ++ '\t' ::
          (if v = [] then "(devel)".data else v) ++ '\t' :: s) := by
        simp [List.mem_append, hpc.2, hvc.2, hsc.2]
      refine ⟨n + 1, Last.main, ?_⟩
      rw [formatMod_none_append, toLines_line _ _ hline]
      simp only [decodeLines]
      rw [lineShape_mod, stepLine_mod3 _ _ _ hpc.1 hvc.1 hsc.1]
      rfl
  | .mk p v s (some (.mk rp rv rs none)) =>
      obtain ⟨hp, hv, hs, hrp, hrv, hrs⟩ :
          (cleanB p = true ∧ cleanB v = true ∧ s = [] ∧
            cleanB rp = true ∧ cleanB rv = true ∧ cleanB rs = true) := by
        simpa [wfModB, Bool.and_eq_true, and_assoc] using h
      subst hs
      have hpc := (cleanB_iff p).mp hp
      have hvc := mv_clean v hv
      have hrpc := (cleanB_iff rp).mp hrp
      have hrvc := mv_clean rv hrv
      have hrsc := (cleanB_iff rs).mp hrs
      have hline1 : '\n' ∉ ("mod".data ++ '\t' :: p ++ '\t' ::
          (if v = [] then "(devel)".data else v)) := by
        simp [List.mem_append, hpc.2, hvc.2]
      have hline2 : '\n' ∉ ("=>".data ++ '\t' :: rp ++ '\t' ::
          (if rv = [] then "(devel)".data else rv) ++ '\t' :: rs) := by
        simp [List.mem_append, hrpc.2, hrvc.2, hrsc.2]
      refine ⟨n + 3, Last.none, ?_⟩
      rw [formatMod_some_append, toLines_line _ _ hline1, toLines_line _ _ hline2,
        toLines_line _ _ (by simp : '\n' ∉ ([] : Bytes))]
      simp only [decodeLines]
      rw [lineShape_mod2, stepLine_mod2 _ _ hpc.1 hvc.1]
      simp only [decodeLines]
      rw [lineShape_rep, stepLine_rep3 _ _ _ hrpc.1 hrvc.1 hrsc.1]
      simp only [decodeLines, stepLine_blank]
      rfl
  | .mk p v s (some (.mk rp rv rs (some rr))) =>
      simp [wfModB] at h

theorem decode_pathline (P : Bytes) (hP : '\n' ∉ P) (rest : Bytes) (n : Nat)
    (bi : BuildInfo) (last : Last) :
    decodeLines (toLines (("path\t".data ++ P ++ ['\n']) ++ rest)) n bi last
      = decodeLines (toLines rest) (n + 1) { bi with Path := P } last := by
  have hline : '\n' ∉ ("path\t".data ++ P) := by
    simp [List.mem_append, hP]
  have e : ("path\t".data ++ P ++ ['\n']) ++ rest = ("path\t".data ++ P) ++ '\n' :: rest := by
    rw [List.append_assoc ("path\t".data ++ P), List.singleton_append]
  rw [e, toLines_line _ _ hline]
  simp only [decodeLines]
  rw [stepLine_path]

theorem decode_deps (ds : List Module) (h : ∀ m ∈ ds, wfModB m = true) (n : Nat)
    (bi : BuildInfo) (last : Last) :
    decodeLines (toLines ((ds.map (formatMod "dep".data)).flatten)) n bi last
      = ({ bi with Deps := bi.Deps ++ ds.map normMod }, none) := by
  induction ds generalizing n bi last with
  | nil => simp [toLines, decodeLines]
  | cons m tail ih =>
      obtain ⟨n2, last2, e⟩ :=
        decode_fm_dep m (h m (List.mem_cons_self m tail)) ((tail.map (formatMod "dep".data)).flatten)
          n bi last
      rw [List.map_cons, List.flatten_cons, e,
        ih (fun x hx => h x (List.mem_cons_of_mem m hx)) n2 _ last2]
      simp [List.append_assoc]

/-- Core round-trip fact: decoding the encoding of an encodable build info
yields exactly its devel-normalization, with no error, whatever the prior
receiver contents. -/
theorem decode_marshal (bi : BuildInfo) (h : wfBI bi = true) (b0 : BuildInfo) :
    BuildInfo.unmarshalText b0 bi.marshalText = (rtBI bi, none) := by
  obtain ⟨h1', h2, h3'⟩ :
      ('\n' ∉ bi.Path ∧
        (if bi.Main.Path = [] then bi.Main = zeroModule else wfModB bi.Main = true) ∧
        ∀ x ∈ bi.Deps, wfModB x = true) := by
    simpa [wfBI, Bool.and_eq_true, and_assoc] using h
  show decodeLines (toLines bi.marshalText) 1 zeroBuildInfo Last.none = _
  rw [BuildInfo.marshalText, List.append_assoc]
  by_cases hm : bi.Main.Path = []
  · have h2' : bi.Main = zeroModule := by simpa [hm] using h2
    rw [if_pos hm]
    by_cases hp : bi.Path = []
    · rw [if_pos hp, List.nil_append, List.nil_append, decode_deps _ h3']
      simp [rtBI, zeroBuildInfo, hp, hm, h2', zeroModule, Module.Path]
    · rw [if_neg hp, decode_pathline _ h1', List.nil_append, decode_deps _ h3']
      simp [rtBI, zeroBuildInfo, hm, h2', zeroModule, Module.Path]
  · have h2' : wfModB bi.Main = true := by simpa [hm] using h2
    rw [if_neg hm]
    by_cases hp : bi.Path = []
    · rw [if_pos hp, List.nil_append]
      obtain ⟨n2, last2, e⟩ :=
        decode_fm_main bi.Main h2' ((bi.Deps.map (formatMod "dep".data)).flatten)
          1 zeroBuildInfo Last.none
      rw [e, decode_deps _ h3']
      simp [rtBI, zeroBuildInfo, hp, hm]
    · rw [if_neg hp, decode_pathline _ h1']
      obtain ⟨n2, last2, e⟩ :=
        decode_fm_main bi.Main h2' ((bi.Deps.map (formatMod "dep".data)).flatten)
          2 { zeroBuildInfo with Path := bi.Path } Last.none
      rw [e, decode_deps _ h3']
      simp [rtBI, zeroBuildInfo, hm]

/-! ## Properties of the devel normalization -/

theorem normMod_eq_self : (m : Module) → versionsOk m = true → normMod m = m
  | .mk p v s none, h => by
      have hv : v ≠ [] := by simpa [versionsOk] using h
      simp [normMod, hv]
  | .mk p v s (some r), h => by
      obtain ⟨hv, hr⟩ : (v ≠ [] ∧ versionsOk r = true) := by
        simpa [versionsOk, Bool.and_eq_true] using h
      simp [normMod, hv, normMod_eq_self r hr]

theorem versionsOk_mk_none (p x s : Bytes) :
    versionsOk (Module.mk p x s none) = decide (x ≠ []) := rfl

theorem versionsOk_mk_some (p x s : Bytes) (r : Module) :
    versionsOk (Module.mk p x s (some r)) = (decide (x ≠ []) && versionsOk r) := rfl

theorem versionsOk_normMod : (m : Module) → versionsOk (normMod m) = true
  | .mk p v s none => by
      by_cases hv : v = []
      · have e : normMod (Module.mk p v s none) = Module.mk p "(devel)".data s none := by
          simp [normMod, hv]
        rw [e, versionsOk_mk_none]
        decide
      · have e : normMod (Module.mk p v s none) = Module.mk p v s none := by
          simp [normMod, hv]
        rw [e, versionsOk_mk_none]
        simpa using hv
  | .mk p v s (some r) => by
      have ih := versionsOk_normMod r
      by_cases hv : v = []
      · have e : normMod (Module.mk p v s (some r))
            = Module.mk p "(devel)".data s (some (normMod r)) := by
          simp [normMod, hv]
        rw [e, versionsOk_mk_some, ih, Bool.and_true]
        decide
      · have e : normMod (Module.mk p v s (some r))
            = Module.mk p v s (some (normMod r)) := by
          simp [normMod, hv]
        rw [e, versionsOk_mk_some, ih, Bool.and_true]
        simpa using hv

theorem normMod_Path (m : Module) : (normMod m).Path = m.Path := by
  cases m with
  | mk p v s r => cases r <;> simp [normMod, Module.Path]

theorem normMod_Version_of_empty (m : Module) (h : m.Version = []) :
    (normMod m).Version = "(devel)".data := by
  cases m with
  | mk p v s r =>
      have hv : v = [] := h
      cases r <;> simp [normMod, Module.Version, hv]

theorem map_normMod_eq (ds : List Module) (h : ∀ m ∈ ds, versionsOk m = true) :
    ds.map normMod = ds := by
  induction ds with
  | nil => rfl
  | cons m tail ih =>
      rw [List.map_cons, normMod_eq_self m (h m (List.mem_cons_self m tail)),
        ih (fun x hx => h x (List.mem_cons_of_mem m hx))]

theorem wfModB_normMod (m : Module) (h : wfModB m = true) : wfModB (normMod m) = true := by
  match m with
  | .mk p v s none =>
      obtain ⟨hp, hv, hs⟩ :
          (cleanB p = true ∧ cleanB v = true ∧ cleanB s = true) := by
        simpa [wfModB, Bool.and_eq_true, and_assoc] using h
      have hvc := mv_clean v hv
      simp [normMod, wfModB, hp, hs, (cleanB_iff _).mpr hvc]
  | .mk p v s (some (.mk rp rv rs none)) =>
      obtain ⟨hp, hv, hs, hrp, hrv, hrs⟩ :
          (cleanB p = true ∧ cleanB v = true ∧ s = [] ∧
            cleanB rp = true ∧ cleanB rv = true ∧ cleanB rs = true) := by
        simpa [wfModB, Bool.and_eq_true, and_assoc] using h
      subst hs
      have hvc := mv_clean v hv
      have hrvc := mv_clean rv hrv
      simp [normMod, wfModB, hp, hrp, hrs, (cleanB_iff _).mpr hvc, (cleanB_iff _).mpr hrvc]
  | .mk p v s (some (.mk rp rv rs (some rr))) =>
      simp [wfModB] at h

theorem wfBI_rtBI (bi : BuildInfo) (h : wfBI bi = true) : wfBI (rtBI bi) = true := by
  obtain ⟨h1, h2, h3⟩ :
      ('\n' ∉ bi.Path ∧
        (if bi.Main.Path = [] then bi.Main = zeroModule else wfModB bi.Main = true) ∧
        ∀ x ∈ bi.Deps, wfModB x = true) := by
    simpa [wfBI, Bool.and_eq_true, and_assoc] using h
  have hdeps : (bi.Deps.map normMod).all wfModB = true := by
    rw [List.all_map]
    exact List.all_eq_true.mpr fun x hx => wfModB_normMod x (h3 x hx)
  by_cases hm : bi.Main.Path = []
  · have hrt : rtBI bi = ⟨bi.Path, zeroModule, bi.Deps.map normMod⟩ := by
      rw [rtBI, if_pos hm]
    rw [hrt, wfBI]
    simp [h1, hdeps, zeroModule, Module.Path]
  · have h2' : wfModB bi.Main = true := by simpa [hm] using h2
    have hrt : rtBI bi = ⟨bi.Path, normMod bi.Main, bi.Deps.map normMod⟩ := by
      rw [rtBI, if_neg hm]
    rw [hrt, wfBI]
    simp [h1, hdeps, normMod_Path, hm, wfModB_normMod _ h2']

theorem rtBI_idem (bi : BuildInfo) : rtBI (rtBI bi) = rtBI bi := by
  have hdeps : ((bi.Deps.map normMod).map normMod) = bi.Deps.map normMod :=
    map_normMod_eq _ (by
      intro x hx
      obtain ⟨y, hy, rfl⟩ := List.mem_map.mp hx
      exact versionsOk_normMod y)
  by_cases hm : bi.Main.Path = []
  · have hrt : rtBI bi = ⟨bi.Path, zeroModule, bi.Deps.map normMod⟩ := by
      rw [rtBI, if_pos hm]
    rw [hrt, rtBI, if_pos (show (zeroModule).Path = [] from rfl)]
    simp [hdeps]
  · have hrt : rtBI bi = ⟨bi.Path, normMod bi.Main, bi.Deps.map normMod⟩ := by
      rw [rtBI, if_neg hm]
    rw [hrt, rtBI, if_neg (by simpa [normMod_Path] using hm)]
    simp [hdeps, normMod_eq_self _ (versionsOk_normMod bi.Main)]

/-! ## Prefix characterization and error-step lemmas -/

theorem startsWith_iff (pre line : Bytes) :
    startsWith pre line = true ↔ ∃ r, line = pre ++ r := by
  induction pre generalizing line with
  | nil => simp [startsWith]
  | cons p ps ih =>
      cases line with
      | nil => simp [startsWith]
      | cons c cs =>
          simp only [startsWith, Bool.and_eq_true, beq_iff_eq, ih, List.cons_append,
            List.cons.injEq]
          constructor
          · rintro ⟨rfl, r, rfl⟩
            exact ⟨r, rfl, rfl⟩
          · rintro ⟨r, rfl, rfl⟩
            exact ⟨rfl, r, rfl⟩

theorem readModuleLine_err (e : List Bytes) (h2 : e.length ≠ 2) (h3 : e.length ≠ 3) :
    readModuleLine e = .error ("expected 2 or 3 columns; got " ++ toString e.length) := by
  match e with
  | [] => rfl
  | [a] => rfl
  | [a, b] => exact absurd rfl h2
  | [a, b, c] => exact absurd rfl h3
  | a :: b :: c :: d :: t => rfl

theorem stepLine_mod_err (rest : Bytes) (bi : BuildInfo) (last : Last)
    (h2 : (splitTab rest).length ≠ 2) (h3 : (splitTab rest).length ≠ 3) :
    stepLine ("mod\t".data ++ rest) bi last =
      .inr ({ bi with Main := zeroModule },
        "expected 2 or 3 columns; got " ++ toString (splitTab rest).length) := by
  rw [stepLine_mod, readModuleLine_err _ h2 h3]

theorem stepLine_dep_err (rest : Bytes) (bi : BuildInfo) (last : Last)
    (h2 : (splitTab rest).length ≠ 2) (h3 : (splitTab rest).length ≠ 3) :
    stepLine ("dep\t".data ++ rest) bi last =
      .inr ({ bi with Deps := bi.Deps ++ [zeroModule] },
        "expected 2 or 3 columns; got " ++ toString (splitTab rest).length) := by
  rw [stepLine_dep, readModuleLine_err _ h2 h3]

theorem stepLine_rep_err (rest : Bytes) (bi : BuildInfo) (last : Last)
    (h3 : (splitTab rest).length ≠ 3) :
    stepLine ("=>\t".data ++ rest) bi last =
      .inr (bi, "expected 3 columns for replacement; got " ++ toString (splitTab rest).length) := by
  rw [stepLine_rep]
  generalize hz : splitTab rest = xs at h3 ⊢
  rcases xs with _ | ⟨a, _ | ⟨b, _ | ⟨c, _ | ⟨d, t⟩⟩⟩⟩
  · rfl
  · rfl
  · rfl
  · exact absurd rfl h3
  · rfl

theorem stepLine_rep_orphan (rest : Bytes) (bi : BuildInfo)
    (h3 : (splitTab rest).length = 3) :
    stepLine ("=>\t".data ++ rest) bi Last.none =
      .inr (bi, "replacement with no module on previous line") := by
  rw [stepLine_rep]
  generalize hz : splitTab rest = xs at h3 ⊢
  rcases xs with _ | ⟨a, _ | ⟨b, _ | ⟨c, _ | ⟨d, t⟩⟩⟩⟩
  · simp at h3
  · simp at h3
  · simp at h3
  · rfl
  · simp [List.length_cons] at h3

/-! ## Replacement depth invariant of the decoder -/

/-- The build-info component of a step result (continue or stop). -/
def stepBI : (BuildInfo × Last) ⊕ (BuildInfo × String) → BuildInfo
  | .inl (b, _) => b
  | .inr (b, _) => b

theorem modOneLevel_of_withReplace (m : Module) (p v s : Bytes) :
    modOneLevel (m.withReplace (Module.mk p v s none)) = true := by
  cases m with
  | mk a b c r => rfl

theorem attachToLastDep_all (ds : List Module) (p v s : Bytes)
    (h : ds.all modOneLevel = true) :
    (attachToLastDep (Module.mk p v s none) ds).all modOneLevel = true := by
  induction ds with
  | nil => rfl
  | cons m tail ih =>
      cases tail with
      | nil =>
          simp only [attachToLastDep, List.all_cons, List.all_nil, Bool.and_true]
          exact modOneLevel_of_withReplace m p v s
      | cons y ys =>
          simp only [List.all_cons, Bool.and_eq_true] at h
          simp only [attachToLastDep, List.all_cons, Bool.and_eq_true]
          refine ⟨h.1, ?_⟩
          have := ih (by simp [List.all_cons, Bool.and_eq_true, h.2.1, h.2.2])
          simpa [attachToLastDep, List.all_cons, Bool.and_eq_true] using this

theorem readModuleLine_ok_oneLevel : (e : List Bytes) → (m : Module) →
    readModuleLine e = .ok m → modOneLevel m = true
  | [p, v], m, h => by
      simp only [readModuleLine, Except.ok.injEq] at h
      rw [← h]; rfl
  | [p, v, s], m, h => by
      simp only [readModuleLine, Except.ok.injEq] at h
      rw [← h]; rfl
  | [], m, h => by simp [readModuleLine] at h
  | [p], m, h => by simp [readModuleLine] at h
  | p :: v :: s :: d :: t, m, h => by simp [readModuleLine] at h

theorem stepLine_repDepthOk (line : Bytes) (bi : BuildInfo) (last : Last)
    (h : repDepthOk bi = true) : repDepthOk (stepBI (stepLine line bi last)) = true := by
  obtain ⟨hM, hD⟩ : (modOneLevel bi.Main = true ∧ ∀ x ∈ bi.Deps, modOneLevel x = true) := by
    simpa [repDepthOk, Bool.and_eq_true, List.all_eq_true] using h
  by_cases h1 : startsWith "path\t".data line = true
  · obtain ⟨r, rfl⟩ := (startsWith_iff _ _).mp h1
    rw [stepLine_path]
    simp_all [stepBI, repDepthOk, List.all_eq_true]
  · by_cases h2 : startsWith "mod\t".data line = true
    · obtain ⟨r, rfl⟩ := (startsWith_iff _ _).mp h2
      rw [stepLine_mod]
      rcases hq : readModuleLine (splitTab r) with e | m
      · simp_all [stepBI, repDepthOk, List.all_eq_true, zeroModule, modOneLevel]
      · have h5 := readModuleLine_ok_oneLevel _ _ hq
        simp_all [stepBI, repDepthOk, List.all_eq_true]
    · by_cases h3 : startsWith "dep\t".data line = true
      · obtain ⟨r, rfl⟩ := (startsWith_iff _ _).mp h3
        rw [stepLine_dep]
        rcases hq : readModuleLine (splitTab r) with e | m
        · simp_all [stepBI, repDepthOk, List.all_append, List.all_eq_true,
            zeroModule, modOneLevel]
        · have h5 := readModuleLine_ok_oneLevel _ _ hq
          simp_all [stepBI, repDepthOk, List.all_append, List.all_eq_true]
      · by_cases h4 : startsWith "=>\t".data line = true
        · obtain ⟨r, rfl⟩ := (startsWith_iff _ _).mp h4
          rw [stepLine_rep]
          rcases hz : splitTab r with _ | ⟨a, _ | ⟨b, _ | ⟨c, _ | ⟨d, t⟩⟩⟩⟩
          · simp_all [stepBI, repDepthOk, List.all_eq_true]
          · simp_all [stepBI, repDepthOk, List.all_eq_true]
          · simp_all [stepBI, repDepthOk, List.all_eq_true]
          · cases last
            · simp_all [stepBI, repDepthOk, List.all_eq_true]
            · have h5 := modOneLevel_of_withReplace bi.Main a b c
              simp_all [stepBI, repDepthOk, List.all_eq_true]
            · have haD := attachToLastDep_all bi.Deps a b c (List.all_eq_true.mpr hD)
              simp_all [stepBI, repDepthOk, List.all_eq_true]
          · simp_all [stepBI, repDepthOk, List.all_eq_true]
        · rw [stepLine_other line bi last (by simpa using h1) (by simpa using h2)
            (by simpa using h3) (by simpa using h4)]
          simp_all [stepBI, repDepthOk, List.all_eq_true]

theorem decodeLines_repDepthOk (ls : List Bytes) (n : Nat) (bi : BuildInfo) (last : Last)
    (h : repDepthOk bi = true) : repDepthOk (decodeLines ls n bi last).1 = true := by
  induction ls generalizing n bi last with
  | nil => simpa [decodeLines] using h
  | cons l rest ih =>
      have hstep := stepLine_repDepthOk l bi last h
      simp only [decodeLines]
      rcases e : stepLine l bi last with ⟨bi2, last2⟩ | ⟨bi2, msg⟩
      · rw [e] at hstep
        exact ih (n + 1) bi2 last2 (by simpa [stepBI] using hstep)
      · rw [e] at hstep
        simpa [stepBI] using hstep

/-! ## Skipping path and unrecognized lines -/

theorem toLines_join (mids : List Bytes) (h : ∀ l ∈ mids, '\n' ∉ l) (rest : Bytes) :
    toLines (joinLines mids ++ rest) = mids ++ toLines rest := by
  induction mids with
  | nil => simp [joinLines]
  | cons l ls ih =>
      have e : joinLines (l :: ls) ++ rest = l ++ '\n' :: (joinLines ls ++ rest) := by
        simp [joinLines, List.append_assoc]
      rw [e, toLines_line _ _ (h l (List.mem_cons_self l ls)),
        ih (fun x hx => h x (List.mem_cons_of_mem l hx))]
      rfl

theorem applyMids_shape (mids : List Bytes) (bi : BuildInfo) :
    ∃ P, applyMids bi mids = { bi with Path := P } := by
  induction mids generalizing bi with
  | nil => exact ⟨bi.Path, rfl⟩
  | cons l ls ih =>
      by_cases hl : startsWith "path\t".data l = true
      · obtain ⟨P, hP⟩ := ih { bi with Path := l.drop 5 }
        exact ⟨P, by simp [applyMids, hl, hP]⟩
      · obtain ⟨P, hP⟩ := ih bi
        refine ⟨P, ?_⟩
        have hl' : startsWith "path\t".data l = false := by simpa using hl
        simp [applyMids, hl', hP]

theorem drop5_path (r : Bytes) : ("path\t".data ++ r).drop 5 = r := rfl

theorem applyMids_cons (bi : BuildInfo) (l : Bytes) (ls : List Bytes) :
    applyMids bi (l :: ls)
      = applyMids (if startsWith "path\t".data l = true then { bi with Path := l.drop 5 }
          else bi) ls := rfl

theorem decodeLines_cons_inl {line : Bytes} {bi bi2 : BuildInfo} {last last2 : Last}
    (h : stepLine line bi last = .inl (bi2, last2)) (ls : List Bytes) (n : Nat) :
    decodeLines (line :: ls) n bi last = decodeLines ls (n + 1) bi2 last2 := by
  simp only [decodeLines, h]

theorem decodeLines_cons_inr {line : Bytes} {bi bi2 : BuildInfo} {last : Last} {msg : String}
    (h : stepLine line bi last = .inr (bi2, msg)) (ls : List Bytes) (n : Nat) :
    decodeLines (line :: ls) n bi last = (bi2, some ⟨n, msg⟩) := by
  simp only [decodeLines, h]

theorem decodeLines_skip (mids : List Bytes)
    (h : ∀ l ∈ mids, startsWith "mod\t".data l = false ∧
      startsWith "dep\t".data l = false ∧ startsWith "=>\t".data l = false) :
    ∀ (rest : List Bytes) (n : Nat) (bi : BuildInfo) (last : Last),
      decodeLines (mids ++ rest) n bi last
        = decodeLines rest (n + mids.length) (applyMids bi mids) last := by
  induction mids with
  | nil => intro rest n bi last; simp [applyMids]
  | cons l ls ih =>
      intro rest n bi last
      obtain ⟨hm, hd, hr⟩ := h l (List.mem_cons_self l ls)
      have htail := fun x hx => h x (List.mem_cons_of_mem l hx)
      have harith : n + 1 + ls.length = n + (ls.length + 1) := by omega
      by_cases hl : startsWith "path\t".data l = true
      · obtain ⟨r, rfl⟩ := (startsWith_iff _ _).mp hl
        have eA : applyMids bi (("path\t".data ++ r) :: ls)
            = applyMids { bi with Path := r } ls := by
          rw [applyMids_cons, if_pos hl, drop5_path]
        rw [List.cons_append, decodeLines_cons_inl (stepLine_path r bi last) (ls ++ rest) n,
          ih htail rest (n + 1), List.length_cons, eA, harith]
      · have hl' : startsWith "path\t".data l = false := by simpa using hl
        have eA : applyMids bi (l :: ls) = applyMids bi ls := by
          rw [applyMids_cons, if_neg hl]
        rw [List.cons_append,
          decodeLines_cons_inl (stepLine_other l bi last hl' hm hd hr) (ls ++ rest) n,
          ih htail rest (n + 1), List.length_cons, eA, harith]

/-! ## Claim theorems -/

/-- C1 counterexample: the claim as stated is false.  The build info whose
main module has the non-empty version `v1` but an empty path satisfies the
claim's hypothesis (every version field is non-empty), yet the encoder drops
the main module entirely (its path is empty), so decoding the encoding
yields the zero build info, not the original. -/
theorem C1_counterexample :
    biVersionsOk ⟨[], Module.mk [] "v1".data [] none, []⟩ = true ∧
    (BuildInfo.unmarshalText zeroBuildInfo
        (BuildInfo.marshalText ⟨[], Module.mk [] "v1".data [] none, []⟩)).1
      ≠ ⟨[], Module.mk [] "v1".data [] none, []⟩ :=
  ⟨by decide, by decide⟩

/-- C1 (amended): for every BuildInfo in which every version field (of the
main module, every dependency, and every replacement) is non-empty AND which
is encodable — no tab or newline inside any module path, version or
checksum, no newline in the main path, the main module either zero or with
a non-empty path, every module carrying a replacement has an empty checksum,
and no replacement carries a further replacement — decoding the encoding
returns exactly the original build info with no error, whatever the prior
receiver contents. -/
theorem C1_roundtrip (bi : BuildInfo) (h : wfBI bi = true) (hv : biVersionsOk bi = true)
    (b0 : BuildInfo) :
    BuildInfo.unmarshalText b0 bi.marshalText = (bi, none) := by
  rw [decode_marshal bi h b0]
  obtain ⟨hvm, hvd⟩ : (versionsOk bi.Main = true ∧ ∀ x ∈ bi.Deps, versionsOk x = true) := by
    simpa [biVersionsOk, Bool.and_eq_true, List.all_eq_true] using hv
  obtain ⟨h1, h2, h3⟩ :
      ('\n' ∉ bi.Path ∧
        (if bi.Main.Path = [] then bi.Main = zeroModule else wfModB bi.Main = true) ∧
        ∀ x ∈ bi.Deps, wfModB x = true) := by
    simpa [wfBI, Bool.and_eq_true, and_assoc] using h
  have hm : bi.Main.Path ≠ [] := by
    intro e
    have hz : bi.Main = zeroModule := by simpa [e] using h2
    rw [hz] at hvm
    simp [zeroModule, versionsOk] at hvm
  have hrt : rtBI bi = bi := by
    rw [rtBI, if_neg hm, normMod_eq_self _ hvm, map_normMod_eq _ hvd]
  rw [hrt]

/-- C1 witness: the round trip at a concrete encodable build info whose
dependency carries a replacement. -/
theorem C1_roundtrip_witness :
    wfBI ⟨"m/app".data, Module.mk "m/app".data "v1".data "h1".data none,
        [Module.mk "d".data "v2".data []
          (some (Module.mk "r".data "v3".data "s3".data none))]⟩ = true ∧
    biVersionsOk ⟨"m/app".data, Module.mk "m/app".data "v1".data "h1".data none,
        [Module.mk "d".data "v2".data []
          (some (Module.mk "r".data "v3".data "s3".data none))]⟩ = true ∧
    BuildInfo.unmarshalText zeroBuildInfo
        (BuildInfo.marshalText ⟨"m/app".data,
          Module.mk "m/app".data "v1".data "h1".data none,
          [Module.mk "d".data "v2".data []
            (some (Module.mk "r".data "v3".data "s3".data none))]⟩)
      = (⟨"m/app".data, Module.mk "m/app".data "v1".data "h1".data none,
          [Module.mk "d".data "v2".data []
            (some (Module.mk "r".data "v3".data "s3".data none))]⟩, none) :=
  ⟨by decide, by decide, C1_roundtrip _ (by decide) (by decide) zeroBuildInfo⟩

/-- C2 counterexample: the claim as stated is false.  The zero build info
has a module (its main module) with an empty version, yet decoding its
encoding (the empty byte string) yields the zero build info again, whose
main version is the empty string and not `(devel)`. -/
theorem C2_counterexample :
    (BuildInfo.mk [] zeroModule []).Main.Version = [] ∧
    (BuildInfo.unmarshalText zeroBuildInfo
        (BuildInfo.marshalText ⟨[], zeroModule, []⟩)).1.Main.Version ≠ "(devel)".data :=
  ⟨rfl, by decide⟩

/-- C2 (amended): for every encodable BuildInfo whose main module has a
non-empty path (so the main module is actually written out by the encoder;
fields free of tabs and newlines, no newline in the main path, replaced
modules with an empty checksum, replacement depth at most one; versions may
be empty), one encode/decode cycle yields exactly the devel normalization
of x: the decoded main module is `normMod` of the original, the decoded
dependency list is the positional `normMod` image of the original, and
`normMod` turns every empty version — of the main module, a dependency, or
a replacement — into the literal `(devel)` (fourth conjunct); a second
encode/decode cycle on the result is a fixed point.  This holds for every
module with an empty version, which subsumes the claim's "some module". -/
theorem C2_devel_normalization (bi : BuildInfo) (h : wfBI bi = true)
    (hmp : bi.Main.Path ≠ []) (b0 b1 : BuildInfo) :
    BuildInfo.unmarshalText b0 bi.marshalText = (rtBI bi, none) ∧
    (rtBI bi).Main = normMod bi.Main ∧
    (rtBI bi).Deps = bi.Deps.map normMod ∧
    (∀ m : Module, m.Version = [] → (normMod m).Version = "(devel)".data) ∧
    BuildInfo.unmarshalText b1 (rtBI bi).marshalText = (rtBI bi, none) := by
  refine ⟨decode_marshal bi h b0, ?_, rfl, normMod_Version_of_empty, ?_⟩
  · show (if bi.Main.Path = [] then zeroModule else normMod bi.Main) = normMod bi.Main
    rw [if_neg hmp]
  · rw [decode_marshal (rtBI bi) (wfBI_rtBI bi h) b1, rtBI_idem]

/-- C2 witness: a main module with path `m` and empty version decodes back
with version `(devel)`, and the dependency with empty version likewise. -/
theorem C2_devel_normalization_witness :
    BuildInfo.unmarshalText zeroBuildInfo
        (BuildInfo.marshalText ⟨[], Module.mk "m".data [] [] none,
          [Module.mk "d".data [] "s".data none]⟩)
      = (rtBI ⟨[], Module.mk "m".data [] [] none,
          [Module.mk "d".data [] "s".data none]⟩, none) ∧
    (rtBI ⟨[], Module.mk "m".data [] [] none,
        [Module.mk "d".data [] "s".data none]⟩).Main.Version = "(devel)".data ∧
    (rtBI ⟨[], Module.mk "m".data [] [] none,
        [Module.mk "d".data [] "s".data none]⟩).Deps
      = [Module.mk "d".data "(devel)".data "s".data none] :=
  ⟨(C2_devel_normalization ⟨[], Module.mk "m".data [] [] none,
      [Module.mk "d".data [] "s".data none]⟩ (by decide)
      (by decide) zeroBuildInfo zeroBuildInfo).1, by decide, by decide⟩

/-- C3: `ReadBuildInfo` on a raw string shorter than 32 bytes reports
absence with no error surfaced; on longer input it strips exactly the first
16 and last 16 bytes and decodes the remainder (absence again on a decode
error); at exactly 32 bytes the payload is empty and the result is the
empty (zero) BuildInfo. -/
theorem C3_min_length_gate (data : Bytes) :
    (data.length < 32 → ReadBuildInfo data = none) ∧
    (32 ≤ data.length →
      ReadBuildInfo data =
        match BuildInfo.unmarshalText zeroBuildInfo
            ((data.drop 16).take (data.length - 32)) with
        | (_, some _) => none
        | (bi, none) => some bi) ∧
    (data.length = 32 → ReadBuildInfo data = some zeroBuildInfo) := by
  refine ⟨fun h => by rw [ReadBuildInfo, if_pos h], fun h => ?_, fun h => ?_⟩
  · rw [ReadBuildInfo, if_neg (by omega)]
  · rw [ReadBuildInfo, if_neg (by omega)]
    have e : (data.drop 16).take (data.length - 32) = [] := by
      simp [h]
    rw [e]
    decide

/-- C3 witness: a 31-byte blob reports absence; a 32-byte blob decodes to
the zero BuildInfo. -/
theorem C3_min_length_gate_witness :
    ReadBuildInfo (List.replicate 31 'a') = none ∧
    ReadBuildInfo (List.replicate 32 'a') = some zeroBuildInfo :=
  ⟨(C3_min_length_gate (List.replicate 31 'a')).1 (by decide),
    (C3_min_length_gate (List.replicate 32 'a')).2.2 (by decide)⟩

/-- C4: a trailing fragment not terminated by a newline byte is never
processed: appending any newline-free fragment to an input leaves the whole
decode result (the build info and the error) unchanged, even if the
fragment is malformed. -/
theorem C4_trailing_fragment_ignored (data frag : Bytes) (h : '\n' ∉ frag)
    (b0 : BuildInfo) :
    BuildInfo.unmarshalText b0 (data ++ frag) = BuildInfo.unmarshalText b0 data := by
  show decodeLines (toLines (data ++ frag)) 1 zeroBuildInfo Last.none
      = decodeLines (toLines data) 1 zeroBuildInfo Last.none
  rw [toLines_append_frag _ _ h]

/-- C4 witness: a malformed unterminated `mod` fragment after a complete
`path` line changes nothing. -/
theorem C4_trailing_fragment_ignored_witness :
    BuildInfo.unmarshalText zeroBuildInfo ("path\tA\n".data ++ "mod\tbad".data)
      = BuildInfo.unmarshalText zeroBuildInfo "path\tA\n".data :=
  C4_trailing_fragment_ignored "path\tA\n".data "mod\tbad".data (by decide) zeroBuildInfo

/-- C5: a mod/dep line whose remainder splits into a column count other
than 2 or 3 is a format error, a `=>` line with a count other than 3 is a
format error (first two general conjuncts and the `readModuleLine`
conjunct); the line counter is 1-based and advances once per consumed line
whether or not the line is recognized (the two `decodeLines` conjuncts);
and concretely `"mod\tA\tv1\n=>\tB\n"` fails at line 2 with the replace
column-count message `expected 3 columns for replacement; got 1`, also when
the first line is unrecognized. -/
theorem C5_column_errors_line_numbers :
    (∀ elem : List Bytes, elem.length ≠ 2 → elem.length ≠ 3 →
      readModuleLine elem
        = .error ("expected 2 or 3 columns; got " ++ toString elem.length)) ∧
    (∀ (rest : Bytes) (bi : BuildInfo) (last : Last),
      (splitTab rest).length ≠ 2 → (splitTab rest).length ≠ 3 →
      stepLine ("mod\t".data ++ rest) bi last
        = .inr ({ bi with Main := zeroModule },
            "expected 2 or 3 columns; got " ++ toString (splitTab rest).length)) ∧
    (∀ (rest : Bytes) (bi : BuildInfo) (last : Last),
      (splitTab rest).length ≠ 3 →
      stepLine ("=>\t".data ++ rest) bi last
        = .inr (bi, "expected 3 columns for replacement; got "
            ++ toString (splitTab rest).length)) ∧
    (∀ (line : Bytes) (ls : List Bytes) (n : Nat) (bi bi2 : BuildInfo)
        (last last2 : Last), stepLine line bi last = .inl (bi2, last2) →
      decodeLines (line :: ls) n bi last = decodeLines ls (n + 1) bi2 last2) ∧
    (∀ (line : Bytes) (ls : List Bytes) (n : Nat) (bi bi2 : BuildInfo)
        (last : Last) (msg : String), stepLine line bi last = .inr (bi2, msg) →
      decodeLines (line :: ls) n bi last = (bi2, some ⟨n, msg⟩)) ∧
    BuildInfo.unmarshalText zeroBuildInfo "mod\tA\tv1\n=>\tB\n".data
      = (⟨[], Module.mk "A".data "v1".data [] none, []⟩,
          some ⟨2, "expected 3 columns for replacement; got 1"⟩) ∧
    BuildInfo.unmarshalText zeroBuildInfo "junk\n=>\tB\n".data
      = (zeroBuildInfo, some ⟨2, "expected 3 columns for replacement; got 1"⟩) :=
  ⟨readModuleLine_err, stepLine_mod_err, stepLine_rep_err,
    fun line ls n bi bi2 last last2 h => decodeLines_cons_inl h ls n,
    fun line ls n bi bi2 last msg h => decodeLines_cons_inr h ls n,
    by decide, by decide⟩

/-- C5 witness: the general error conjuncts at one-column inputs. -/
theorem C5_column_errors_line_numbers_witness :
    readModuleLine ["A".data] = .error "expected 2 or 3 columns; got 1" ∧
    stepLine ("mod\t".data ++ "A".data) zeroBuildInfo Last.none
      = .inr (zeroBuildInfo, "expected 2 or 3 columns; got 1") ∧
    stepLine ("=>\t".data ++ "B".data) zeroBuildInfo Last.main
      = .inr (zeroBuildInfo, "expected 3 columns for replacement; got 1") :=
  ⟨C5_column_errors_line_numbers.1 ["A".data] (by decide) (by decide),
    C5_column_errors_line_numbers.2.1 "A".data zeroBuildInfo Last.none
      (by decide) (by decide),
    C5_column_errors_line_numbers.2.2.1 "B".data zeroBuildInfo Last.main (by decide)⟩

/-- C6: a 3-column `=>` line with no pending attachment target is the
format error `replacement with no module on previous line` (first
conjunct); a successful `=>` line attaches its module as the target's
replacement — main module or last dependency — and clears the target
(second and third conjuncts); concretely, `"=>\tA\tv1\tsum\n"` fails at
line 1, and a second consecutive `=>` line fails at its own line with the
same message. -/
theorem C6_orphan_replace :
    (∀ (rest : Bytes) (bi : BuildInfo), (splitTab rest).length = 3 →
      stepLine ("=>\t".data ++ rest) bi Last.none
        = .inr (bi, "replacement with no module on previous line")) ∧
    (∀ (p v s : Bytes) (bi : BuildInfo), '\t' ∉ p → '\t' ∉ v → '\t' ∉ s →
      stepLine ("=>\t".data ++ (p ++ '\t' :: (v ++ '\t' :: s))) bi Last.main
        = .inl ({ bi with Main := bi.Main.withReplace (Module.mk p v s none) },
            Last.none)) ∧
    (∀ (p v s : Bytes) (bi : BuildInfo), '\t' ∉ p → '\t' ∉ v → '\t' ∉ s →
      stepLine ("=>\t".data ++ (p ++ '\t' :: (v ++ '\t' :: s))) bi Last.dep
        = .inl ({ bi with Deps := attachToLastDep (Module.mk p v s none) bi.Deps },
            Last.none)) ∧
    BuildInfo.unmarshalText zeroBuildInfo "=>\tA\tv1\tsum\n".data
      = (zeroBuildInfo, some ⟨1, "replacement with no module on previous line"⟩) ∧
    BuildInfo.unmarshalText zeroBuildInfo
        "mod\tM\tv1\ts1\n=>\tA\tv2\ts2\n=>\tB\tv3\ts3\n".data
      = (⟨[], Module.mk "M".data "v1".data "s1".data
            (some (Module.mk "A".data "v2".data "s2".data none)), []⟩,
          some ⟨3, "replacement with no module on previous line"⟩) := by
  refine ⟨stepLine_rep_orphan, ?_, ?_, by decide, by decide⟩
  · intro p v s bi hp hv hs
    rw [stepLine_rep3 p v s hp hv hs]
  · intro p v s bi hp hv hs
    rw [stepLine_rep3 p v s hp hv hs]

/-- C6 witness: the general conjuncts at concrete 3-column `=>` lines. -/
theorem C6_orphan_replace_witness :
    stepLine ("=>\t".data ++ "A\tv1\tsum".data) zeroBuildInfo Last.none
      = .inr (zeroBuildInfo, "replacement with no module on previous line") ∧
    stepLine ("=>\t".data ++ ("A".data ++ '\t' :: ("v1".data ++ '\t' :: "s1".data)))
        zeroBuildInfo Last.main
      = .inl ({ zeroBuildInfo with
          Main := zeroModule.withReplace (Module.mk "A".data "v1".data "s1".data none) },
          Last.none) :=
  ⟨C6_orphan_replace.1 "A\tv1\tsum".data zeroBuildInfo (by decide),
    C6_orphan_replace.2.1 "A".data "v1".data "s1".data zeroBuildInfo
      (by decide) (by decide) (by decide)⟩

/-- C7 counterexample: the claim as stated is false.  Two identical
dependencies with empty versions are not returned unchanged by the round
trip: their versions come back as `(devel)`. -/
theorem C7_counterexample :
    (BuildInfo.unmarshalText zeroBuildInfo (BuildInfo.marshalText
        ⟨[], zeroModule, [Module.mk "A".data [] [] none,
          Module.mk "A".data [] [] none]⟩)).1.Deps
      ≠ [Module.mk "A".data [] [] none, Module.mk "A".data [] [] none] := by decide

/-- C7 (amended): dependency order and duplicates are preserved end to
end.  A dep line always appends its module at the end of the dependency
list (third conjunct); and for every encodable BuildInfo with
`Deps = [d1, d2]` and non-empty version fields in d1, d2 — d1 and d2 may
share the same path or even be identical — the round trip returns
`[d1, d2]` with no error, with no reordering and no deduplication. -/
theorem C7_dep_order (P : Bytes) (M d1 d2 : Module)
    (h : wfBI ⟨P, M, [d1, d2]⟩ = true)
    (h1 : versionsOk d1 = true) (h2 : versionsOk d2 = true) (b0 : BuildInfo) :
    (BuildInfo.unmarshalText b0 (BuildInfo.marshalText ⟨P, M, [d1, d2]⟩)).1.Deps
      = [d1, d2] ∧
    (BuildInfo.unmarshalText b0 (BuildInfo.marshalText ⟨P, M, [d1, d2]⟩)).2 = none ∧
    (∀ (line : Bytes) (bi : BuildInfo) (last : Last) (m : Module),
      startsWith "dep\t".data line = true →
      readModuleLine (splitTab (line.drop 4)) = .ok m →
      stepLine line bi last = .inl ({ bi with Deps := bi.Deps ++ [m] }, Last.dep)) := by
  refine ⟨?_, ?_, ?_⟩
  · rw [decode_marshal _ h b0]
    show [d1, d2].map normMod = [d1, d2]
    rw [List.map_cons, List.map_cons, List.map_nil,
      normMod_eq_self d1 h1, normMod_eq_self d2 h2]
  · rw [decode_marshal _ h b0]
  · intro line bi last m hsw hok
    obtain ⟨r, rfl⟩ := (startsWith_iff _ _).mp hsw
    have e : ("dep\t".data ++ r).drop 4 = r := rfl
    rw [e] at hok
    rw [stepLine_dep, hok]

/-- C7 witness: two identical dependencies (same path, same version)
survive the round trip as a list of two. -/
theorem C7_dep_order_witness :
    (BuildInfo.unmarshalText zeroBuildInfo (BuildInfo.marshalText
        ⟨[], zeroModule, [Module.mk "A".data "v1".data "s1".data none,
          Module.mk "A".data "v1".data "s1".data none]⟩)).1.Deps
      = [Module.mk "A".data "v1".data "s1".data none,
          Module.mk "A".data "v1".data "s1".data none] :=
  (C7_dep_order [] zeroModule (Module.mk "A".data "v1".data "s1".data none)
    (Module.mk "A".data "v1".data "s1".data none)
    (by decide) (by decide) (by decide) zeroBuildInfo).1

/-- C8: every successful decode yields a build info in which no replacement
module (of the main module or of any dependency) carries a replacement of
its own: decode never produces replacement depth greater than 1. -/
theorem C8_replace_depth_one (data : Bytes) (b0 : BuildInfo)
    (_h : (BuildInfo.unmarshalText b0 data).2 = none) :
    repDepthOk (BuildInfo.unmarshalText b0 data).1 = true :=
  decodeLines_repDepthOk (toLines data) 1 zeroBuildInfo Last.none (by decide)

/-- C8 witness: a decode that attaches a replacement still satisfies the
depth bound. -/
theorem C8_replace_depth_one_witness :
    (BuildInfo.unmarshalText zeroBuildInfo "mod\tM\tv1\n=>\tA\tv2\ts2\n".data).2
      = none ∧
    repDepthOk
        (BuildInfo.unmarshalText zeroBuildInfo "mod\tM\tv1\n=>\tA\tv2\ts2\n".data).1
      = true :=
  ⟨by decide, C8_replace_depth_one "mod\tM\tv1\n=>\tA\tv2\ts2\n".data
    zeroBuildInfo (by decide)⟩

/-- C9: the decoder's attachment target is cleared only by a successful
`=>` line, never by ignored or `path` lines.  For an arbitrary dep line
(first conjunct) or mod line (second conjunct) with arbitrary tab- and
newline-free columns, followed by any number of intermediate lines that are
blank, unrecognized, or `path` lines (whose only effect is updating the
main path, as `applyMids` records), a well-formed 3-column `=>` line still
attaches its module as the replacement of that most recent target — the
last dependency after a dep line, the main module after a mod line — and
the whole decode succeeds. -/
theorem C9_attach_across_ignored :
    (∀ (mids : List Bytes),
      (∀ l ∈ mids, '\n' ∉ l ∧ startsWith "mod\t".data l = false ∧
        startsWith "dep\t".data l = false ∧ startsWith "=>\t".data l = false) →
      ∀ (dp dv ds p v s : Bytes), cleanB dp = true → cleanB dv = true →
        cleanB ds = true → cleanB p = true → cleanB v = true → cleanB s = true →
      ∀ b0 : BuildInfo,
      BuildInfo.unmarshalText b0
          (("dep\t".data ++ (dp ++ '\t' :: (dv ++ '\t' :: ds))) ++
            '\n' :: (joinLines mids ++
              (("=>\t".data ++ (p ++ '\t' :: (v ++ '\t' :: s))) ++ ['\n'])))
        = ({ applyMids ⟨[], zeroModule, [Module.mk dp dv ds none]⟩ mids with
              Deps := [Module.mk dp dv ds (some (Module.mk p v s none))] },
            none)) ∧
    (∀ (mids : List Bytes),
      (∀ l ∈ mids, '\n' ∉ l ∧ startsWith "mod\t".data l = false ∧
        startsWith "dep\t".data l = false ∧ startsWith "=>\t".data l = false) →
      ∀ (mp mv ms p v s : Bytes), cleanB mp = true → cleanB mv = true →
        cleanB ms = true → cleanB p = true → cleanB v = true → cleanB s = true →
      ∀ b0 : BuildInfo,
      BuildInfo.unmarshalText b0
          (("mod\t".data ++ (mp ++ '\t' :: (mv ++ '\t' :: ms))) ++
            '\n' :: (joinLines mids ++
              (("=>\t".data ++ (p ++ '\t' :: (v ++ '\t' :: s))) ++ ['\n'])))
        = ({ applyMids ⟨[], Module.mk mp mv ms none, []⟩ mids with
              Main := Module.mk mp mv ms (some (Module.mk p v s none)) },
            none)) := by
  constructor
  · intro mids hm dp dv ds p v s hdp hdv hds hp hv hs b0
    obtain ⟨hdp1, hdp2⟩ := (cleanB_iff dp).mp hdp
    obtain ⟨hdv1, hdv2⟩ := (cleanB_iff dv).mp hdv
    obtain ⟨hds1, hds2⟩ := (cleanB_iff ds).mp hds
    obtain ⟨hp1, hp2⟩ := (cleanB_iff p).mp hp
    obtain ⟨hv1, hv2⟩ := (cleanB_iff v).mp hv
    obtain ⟨hs1, hs2⟩ := (cleanB_iff s).mp hs
    have hL1 : '\n' ∉ ("dep\t".data ++ (dp ++ '\t' :: (dv ++ '\t' :: ds))) := by
      simp [List.mem_append, hdp2, hdv2, hds2]
    have hL2 : '\n' ∉ ("=>\t".data ++ (p ++ '\t' :: (v ++ '\t' :: s))) := by
      simp [List.mem_append, hp2, hv2, hs2]
    show decodeLines (toLines _) 1 zeroBuildInfo Last.none = _
    rw [toLines_line _ _ hL1, toLines_join mids (fun l hl => (hm l hl).1),
      toLines_line _ _ hL2]
    have dstep : stepLine ("dep\t".data ++ (dp ++ '\t' :: (dv ++ '\t' :: ds)))
        zeroBuildInfo Last.none
        = .inl (⟨[], zeroModule, [Module.mk dp dv ds none]⟩, Last.dep) :=
      stepLine_dep3 dp dv ds hdp1 hdv1 hds1 zeroBuildInfo Last.none
    rw [decodeLines_cons_inl dstep,
      decodeLines_skip mids
        (fun l hl => ⟨(hm l hl).2.1, (hm l hl).2.2.1, (hm l hl).2.2.2⟩)]
    obtain ⟨P, eP⟩ := applyMids_shape mids ⟨[], zeroModule, [Module.mk dp dv ds none]⟩
    rw [eP, decodeLines_cons_inl (stepLine_rep3 p v s hp1 hv1 hs1 _ Last.dep)]
    rfl
  · intro mids hm mp mv ms p v s hmp hmv hms hp hv hs b0
    obtain ⟨hmp1, hmp2⟩ := (cleanB_iff mp).mp hmp
    obtain ⟨hmv1, hmv2⟩ := (cleanB_iff mv).mp hmv
    obtain ⟨hms1, hms2⟩ := (cleanB_iff ms).mp hms
    obtain ⟨hp1, hp2⟩ := (cleanB_iff p).mp hp
    obtain ⟨hv1, hv2⟩ := (cleanB_iff v).mp hv
    obtain ⟨hs1, hs2⟩ := (cleanB_iff s).mp hs
    have hL1 : '\n' ∉ ("mod\t".data ++ (mp ++ '\t' :: (mv ++ '\t' :: ms))) := by
      simp [List.mem_append, hmp2, hmv2, hms2]
    have hL2 : '\n' ∉ ("=>\t".data ++ (p ++ '\t' :: (v ++ '\t' :: s))) := by
      simp [List.mem_append, hp2, hv2, hs2]
    show decodeLines (toLines _) 1 zeroBuildInfo Last.none = _
    rw [toLines_line _ _ hL1, toLines_join mids (fun l hl => (hm l hl).1),
      toLines_line _ _ hL2]
    have mstep : stepLine ("mod\t".data ++ (mp ++ '\t' :: (mv ++ '\t' :: ms)))
        zeroBuildInfo Last.none
        = .inl (⟨[], Module.mk mp mv ms none, []⟩, Last.main) :=
      stepLine_mod3 mp mv ms hmp1 hmv1 hms1 zeroBuildInfo Last.none
    rw [decodeLines_cons_inl mstep,
      decodeLines_skip mids
        (fun l hl => ⟨(hm l hl).2.1, (hm l hl).2.2.1, (hm l hl).2.2.2⟩)]
    obtain ⟨P, eP⟩ := applyMids_shape mids ⟨[], Module.mk mp mv ms none, []⟩
    rw [eP, decodeLines_cons_inl (stepLine_rep3 p v s hp1 hv1 hs1 _ Last.main)]
    rfl

/-- C9 witness: a blank line, a path line and an unrecognized line between
the dep (respectively mod) line and the `=>` line do not break the
attachment to the last dependency (respectively the main module). -/
theorem C9_attach_across_ignored_witness :
    BuildInfo.unmarshalText zeroBuildInfo
        (("dep\t".data ++ ("A".data ++ '\t' :: ("v1".data ++ '\t' :: "s1".data))) ++
          '\n' :: (joinLines [[], "path\tXYZ".data, "hello".data] ++
            (("=>\t".data ++ ("B".data ++ '\t' :: ("v2".data ++ '\t' :: "s2".data)))
              ++ ['\n'])))
      = (⟨"XYZ".data, zeroModule,
          [Module.mk "A".data "v1".data "s1".data
            (some (Module.mk "B".data "v2".data "s2".data none))]⟩, none) ∧
    BuildInfo.unmarshalText zeroBuildInfo
        (("mod\t".data ++ ("M".data ++ '\t' :: ("v1".data ++ '\t' :: "s1".data))) ++
          '\n' :: (joinLines [[], "path\tXYZ".data, "hello".data] ++
            (("=>\t".data ++ ("B".data ++ '\t' :: ("v2".data ++ '\t' :: "s2".data)))
              ++ ['\n'])))
      = (⟨"XYZ".data, Module.mk "M".data "v1".data "s1".data
            (some (Module.mk "B".data "v2".data "s2".data none)), []⟩, none) :=
  ⟨C9_attach_across_ignored.1 [[], "path\tXYZ".data, "hello".data] (by decide)
      "A".data "v1".data "s1".data "B".data "v2".data "s2".data
      (by decide) (by decide) (by decide) (by decide) (by decide) (by decide)
      zeroBuildInfo,
    C9_attach_across_ignored.2 [[], "path\tXYZ".data, "hello".data] (by decide)
      "M".data "v1".data "s1".data "B".data "v2".data "s2".data
      (by decide) (by decide) (by decide) (by decide) (by decide) (by decide)
      zeroBuildInfo⟩

/-- C10: `UnmarshalText` resets the receiver to the zero BuildInfo before
scanning (`*bi = BuildInfo{}`), so the result — both the final receiver
state and the error — is a function of the input bytes alone: two runs on
the same input from arbitrary prior receiver states agree, and both equal
the run of the decode loop from the zero build info. -/
theorem C10_receiver_independent (b1 b2 : BuildInfo) (data : Bytes) :
    BuildInfo.unmarshalText b1 data = BuildInfo.unmarshalText b2 data ∧
    BuildInfo.unmarshalText b1 data
      = decodeLines (toLines data) 1 zeroBuildInfo Last.none :=
  ⟨rfl, rfl⟩

end Debug
